import Mathlib

/-!
Shallow embedding of `src/visual.py`: four data-visualization routines
(merging climate tables on year, rolling means, yearly bar counts,
categorical pie bucketing), with theorems about their tabular cores.
Network fetch, CSV parsing, date parsing and chart rendering are out of
scope; they appear as abstract parameters (`load`, `parse`) where needed.
-/

namespace Visual

/-! ## Merge (`merge_climate_data`)

Each source, after `pd.read_csv(url, skiprows=5, sep='\s+')`, selecting
`['year', 'ann']` and renaming `ann`, is a table of rows carrying a year
and the value columns accumulated so far.  `pd.merge(_, _, on="year")`
is an inner equality join on the year column. -/

structure MRow where
  year : Int
  vals : List Rat
deriving DecidableEq

/-- Embeds `pd.merge(l, r, on="year")`: for each left row, each right row with an
equal year yields one output row whose value columns are concatenated. -/
def innerMerge (l r : List MRow) : List MRow :=
  l.flatMap fun a =>
    (r.filter fun b => decide (b.year = a.year)).map fun b =>
      ⟨a.year, a.vals ++ b.vals⟩

/-- The merging loop of `merge_climate_data`: `merged_df = dfs[0]` (an
`IndexError`, modelled as `none`, when `dfs` is empty) followed by
successive inner merges on `"year"`. -/
def merge_of_dfs : List (List MRow) → Option (List MRow)
  | [] => none
  | d :: rest => some (rest.foldl innerMerge d)

/-- Embeds `merge_climate_data(urls, columns)`: `zip(urls, columns)` loads one
table per pair, then the loaded tables are merged.  `load` abstracts
`pd.read_csv` plus column selection and renaming. -/
def merge_climate_data (urls columns : List String)
    (load : String → String → List MRow) : Option (List MRow) :=
  merge_of_dfs ((urls.zip columns).map fun p => load p.1 p.2)

/-- Two-row tables sharing a duplicated year: the inner join pairs every
left row with every matching right row. -/
def dupA : List MRow := [⟨2000, [1]⟩, ⟨2000, [2]⟩]

def dupB : List MRow := [⟨2000, [3]⟩, ⟨2000, [4]⟩]

def witA : List MRow := [⟨2000, [1]⟩, ⟨2001, [2]⟩]

def witB : List MRow := [⟨2000, [3]⟩]

/-! ## MovingAverage (`plot_moving_averages`)

The DataFrame is a list of named columns; a cell is `none` for NaN.
`df[column] = df[column].rolling(window=window).mean()` assigns into the
caller's frame, so the embedding threads the frame state and returns it.
Reading a missing column raises `KeyError`, modelled as `none`.  Pandas
`rolling(window=w).mean()` has `min_periods` defaulting to `w`: a position
gets a value only when its window holds `w` non-NaN observations (in
particular the first `w - 1` positions are NaN, and a window of size 0
never holds an observation, so every position is NaN). -/

abbrev DF := List (String × List (Option Rat))

/-- Reading `df[c]`: the first column named `c`, if any. -/
def getCol (df : DF) (c : String) : Option (List (Option Rat)) :=
  (df.find? fun p => decide (p.1 = c)).map Prod.snd

/-- Assignment `df[c] = v`: replace the column named `c`, or append it when absent. -/
def setCol (df : DF) (c : String) (v : List (Option Rat)) : DF :=
  if df.any fun p => decide (p.1 = c) then
    df.map fun p => if p.1 = c then (c, v) else p
  else df ++ [(c, v)]

/-- The trailing window of size `w` ending at position `i`. -/
def rollingWindow (xs : List (Option Rat)) (w i : Nat) : List (Option Rat) :=
  (xs.take (i + 1)).drop (i + 1 - w)

/-- One entry of `rolling(window=w).mean()`: defined exactly when the
window holds `w` observations, none of them NaN. -/
def rollingMeanAt (w : Nat) (xs : List (Option Rat)) (i : Nat) : Option Rat :=
  if 1 ≤ w ∧ w ≤ i + 1 ∧ (rollingWindow xs w i).all Option.isSome then
    some ((rollingWindow xs w i).reduceOption.sum / (w : Rat))
  else none

/-- Embeds `rolling(window=w).mean()` over a whole column. -/
def rollingMean (w : Nat) (xs : List (Option Rat)) : List (Option Rat) :=
  (List.range xs.length).map (rollingMeanAt w xs)

/-- The column-rewriting loop of `plot_moving_averages`:
`for column in columns: df[column] = df[column].rolling(window).mean()`.
Plot calls are out of scope; the returned frame is the caller's `df`
after the in-place assignments. -/
def plot_moving_averages (w : Nat) : DF → List String → Option DF
  | df, [] => some df
  | df, c :: cs =>
    (getCol df c).bind fun xs =>
      plot_moving_averages w (setCol df c (rollingMean w xs)) cs

/-- A caller's frame before `plot_moving_averages`: a year column and one
data column. -/
def mdf : DF := [("year", [some 0, some 1]), ("t", [some 1, some 3])]

/-- The same frame after the call: the data column holds the window-2
rolling means `[NaN, (1+3)/2]`. -/
def mdfAfter : DF := [("year", [some 0, some 1]), ("t", [none, some 2])]

/-! ## YearlyBarCount (`plot_unclaimed_estates`)

CSV loading is out of scope; the input is the list of `'Date of Death'`
field values.  `pd.to_datetime(_, format=date_format)` with the default
`errors='raise'` either parses every row or raises for the whole call:
`parse` abstracts one date parse (yielding the `.dt.year` value), and a
single failure makes the whole conversion fail. -/

/-- Embeds `pd.to_datetime(column, format=...).dt.year`: all rows parse, or the
call raises. -/
def parseAll (parse : String → Option Int) : List String → Option (List Int)
  | [] => some []
  | r :: rs =>
    match parse r, parseAll parse rs with
    | some y, some ys => some (y :: ys)
    | _, _ => none

def insertAsc (y : Int) : List Int → List Int
  | [] => [y]
  | x :: xs => if y ≤ x then y :: x :: xs else x :: insertAsc y xs

/-- Ascending sort, for `value_counts().sort_index()`. -/
def sortAsc : List Int → List Int
  | [] => []
  | x :: xs => insertAsc x (sortAsc xs)

/-- Keep years `> 1999`, then `value_counts().sort_index()`: one bar per
distinct remaining year, in ascending year order, with its row count. -/
def yearly_counts (years : List Int) : List (Int × Nat) :=
  let filtered := years.filter fun y => decide (1999 < y)
  (sortAsc filtered.dedup).map fun y => (y, filtered.count y)

/-- Embeds `plot_unclaimed_estates` up to rendering: the bars of the chart, or
`none` when the date conversion raises. -/
def plot_unclaimed_estates (parse : String → Option Int)
    (rows : List String) : Option (List (Int × Nat)) :=
  (parseAll parse rows).map yearly_counts

/-! ## CategoricalBucketPie (`plot_marital_status_distribution`)

The input is the `'Marital Status'` column as a list of values; CSV
loading is out of scope.  `value_counts()` tallies each distinct value
(its ordering by descending count does not affect the properties below),
so a slice is a (label, count) pair over the distinct values. -/

/-- The index of `marital_status_counts[counts / counts.sum() < threshold]`:
the distinct values whose relative frequency is strictly below the
threshold. -/
def small_categories (xs : List String) (θ : Rat) : List String :=
  xs.dedup.filter fun c =>
    decide ((xs.count c : Rat) / (xs.length : Rat) < θ)

/-- Embeds `data['Marital Status'].apply(lambda x: 'Other' if x in
small_categories else x)`. -/
def relabelMarital (xs : List String) (θ : Rat) : List String :=
  xs.map fun x => if x ∈ small_categories xs θ then "Other" else x

/-- Embeds `value_counts()` of a column: one (label, count) pair per distinct
value. -/
def pieSlices (ys : List String) : List (String × Nat) :=
  ys.dedup.map fun c => (c, ys.count c)

/-- Embeds `plot_marital_status_distribution` up to rendering: the pie slices
after relabeling rare categories to `"Other"` and recounting. -/
def plot_marital_status_distribution (xs : List String) (θ : Rat) :
    List (String × Nat) :=
  pieSlices (relabelMarital xs θ)

/-! ## Theorems -/

theorem mem_innerMerge {l r : List MRow} {x : MRow} (hx : x ∈ innerMerge l r) :
    (∃ a ∈ l, a.year = x.year) ∧ ∃ b ∈ r, b.year = x.year := by
  simp only [innerMerge, List.mem_flatMap, List.mem_map, List.mem_filter,
    decide_eq_true_eq] at hx
  obtain ⟨a, ha, b, ⟨hb, hby⟩, rfl⟩ := hx
  exact ⟨⟨a, ha, rfl⟩, ⟨b, hb, hby⟩⟩

theorem filter_year_length_le_one (r : List MRow) (y : Int)
    (h : (r.map MRow.year).Nodup) :
    (r.filter fun b => decide (b.year = y)).length ≤ 1 := by
  induction r with
  | nil => simp
  | cons b r ih =>
    simp only [List.map_cons, List.nodup_cons, List.mem_map] at h
    by_cases hb : b.year = y
    · have hnil : (r.filter fun c => decide (c.year = y)) = [] := by
        rw [List.eq_nil_iff_forall_not_mem]
        intro c hc
        simp only [List.mem_filter, decide_eq_true_eq] at hc
        exact h.1 ⟨c, hc.1, by rw [hc.2, hb]⟩
      simp [List.filter_cons, hb, hnil]
    · simpa [List.filter_cons, hb] using ih h.2

theorem innerMerge_years_sublist (l r : List MRow)
    (h : (r.map MRow.year).Nodup) :
    ((innerMerge l r).map MRow.year).Sublist (l.map MRow.year) := by
  induction l with
  | nil => simp [innerMerge]
  | cons a l ih =>
    have hsplit : innerMerge (a :: l) r =
        ((r.filter fun b => decide (b.year = a.year)).map fun b =>
          (⟨a.year, a.vals ++ b.vals⟩ : MRow)) ++ innerMerge l r := by
      simp [innerMerge]
    have hblock : (((r.filter fun b => decide (b.year = a.year)).map fun b =>
        (⟨a.year, a.vals ++ b.vals⟩ : MRow)).map MRow.year) =
        List.replicate (r.filter fun b => decide (b.year = a.year)).length
          a.year := by
      rw [List.eq_replicate_iff]
      constructor
      · simp
      · intro y hy
        simp only [List.map_map, List.mem_map, Function.comp] at hy
        obtain ⟨b, _, rfl⟩ := hy
        rfl
    have hlen := filter_year_length_le_one r a.year h
    rw [hsplit, List.map_append, hblock, List.map_cons]
    rcases Nat.le_one_iff_eq_zero_or_eq_one.mp hlen with h0 | h1
    · rw [h0, List.replicate_zero, List.nil_append]
      exact (ih).cons a.year
    · rw [h1, List.replicate_one, List.cons_append, List.nil_append]
      exact (ih).cons₂ a.year

theorem innerMerge_length_le_left (l r : List MRow)
    (h : (r.map MRow.year).Nodup) :
    (innerMerge l r).length ≤ l.length := by
  have := (innerMerge_years_sublist l r h).length_le
  simpa using this

theorem innerMerge_years_nodup (l r : List MRow)
    (hl : (l.map MRow.year).Nodup) (hr : (r.map MRow.year).Nodup) :
    ((innerMerge l r).map MRow.year).Nodup :=
  (innerMerge_years_sublist l r hr).nodup hl

theorem innerMerge_length_le_right (l r : List MRow)
    (hl : (l.map MRow.year).Nodup) (hr : (r.map MRow.year).Nodup) :
    (innerMerge l r).length ≤ r.length := by
  have hsub : ((innerMerge l r).map MRow.year) ⊆ (r.map MRow.year) := by
    intro y hy
    simp only [List.mem_map] at hy
    obtain ⟨x, hx, rfl⟩ := hy
    obtain ⟨-, b, hb, hby⟩ := mem_innerMerge hx
    exact List.mem_map.mpr ⟨b, hb, hby⟩
  have := (List.subperm_of_subset (innerMerge_years_nodup l r hl hr)
    hsub).length_le
  simpa using this

theorem foldl_innerMerge_years (rest : List (List MRow)) :
    ∀ acc : List MRow, ∀ x ∈ rest.foldl innerMerge acc,
      ∀ df ∈ acc :: rest, ∃ y ∈ df, y.year = x.year := by
  induction rest with
  | nil =>
    intro acc x hx df hdf
    rcases List.mem_cons.mp hdf with rfl | h
    · exact ⟨x, hx, rfl⟩
    · exact absurd h (List.not_mem_nil df)
  | cons r rest ih =>
    intro acc x hx df hdf
    have hx' : x ∈ rest.foldl innerMerge (innerMerge acc r) := hx
    have hhead := ih (innerMerge acc r) x hx' (innerMerge acc r)
      (List.mem_cons_self _ _)
    obtain ⟨z, hz, hzy⟩ := hhead
    obtain ⟨⟨a, ha, hay⟩, b, hb, hby⟩ := mem_innerMerge hz
    rcases List.mem_cons.mp hdf with rfl | hdf'
    · exact ⟨a, ha, by rw [hay, hzy]⟩
    rcases List.mem_cons.mp hdf' with rfl | hdf''
    · exact ⟨b, hb, by rw [hby, hzy]⟩
    · exact ih (innerMerge acc r) x hx' df (List.mem_cons_of_mem _ hdf'')

theorem foldl_innerMerge_nodup_length (rest : List (List MRow)) :
    ∀ acc : List MRow, (acc.map MRow.year).Nodup →
      (∀ df ∈ rest, (df.map MRow.year).Nodup) →
      ((rest.foldl innerMerge acc).map MRow.year).Nodup ∧
      (rest.foldl innerMerge acc).length ≤ acc.length ∧
      ∀ df ∈ rest, (rest.foldl innerMerge acc).length ≤ df.length := by
  induction rest with
  | nil =>
    intro acc hacc _
    exact ⟨hacc, le_refl _, fun df hdf => absurd hdf (List.not_mem_nil df)⟩
  | cons r rest ih =>
    intro acc hacc hnd
    have hr : (r.map MRow.year).Nodup := hnd r (List.mem_cons_self _ _)
    have hrest : ∀ df ∈ rest, (df.map MRow.year).Nodup :=
      fun df hdf => hnd df (List.mem_cons_of_mem _ hdf)
    have hmr := innerMerge_years_nodup acc r hacc hr
    obtain ⟨h1, h2, h3⟩ := ih (innerMerge acc r) hmr hrest
    refine ⟨h1, le_trans h2 (innerMerge_length_le_left acc r hr), ?_⟩
    intro df hdf
    rcases List.mem_cons.mp hdf with rfl | hdf'
    · exact le_trans h2 (innerMerge_length_le_right acc df hacc hr)
    · exact h3 df hdf'

/-- C1 (counterexample): with a year duplicated in both inputs, the merged
output has 4 rows while both inputs have 2, so the row count exceeds the
minimum input row count. -/
theorem merge_rowcount_counterexample :
    ∃ m, merge_of_dfs [dupA, dupB] = some m ∧
      ¬ m.length ≤ min dupA.length dupB.length :=
  ⟨innerMerge dupA dupB, rfl, by decide⟩

/-- C1 (amended): the year of every merged row appears in every input
table; and when every input table has pairwise-distinct year values, the
merged output's row count is at most every input's row count (hence at
most the minimum). -/
theorem merge_inner_join_props (d : List MRow) (rest : List (List MRow))
    (m : List MRow) (hm : merge_of_dfs (d :: rest) = some m) :
    (∀ x ∈ m, ∀ df ∈ d :: rest, ∃ y ∈ df, y.year = x.year) ∧
    ((∀ df ∈ d :: rest, (df.map MRow.year).Nodup) →
      ∀ df ∈ d :: rest, m.length ≤ df.length) := by
  have hm' : rest.foldl innerMerge d = m := by
    have h : some (rest.foldl innerMerge d) = some m := hm
    exact Option.some.inj h
  subst hm'
  refine ⟨fun x hx => foldl_innerMerge_years rest d x hx, ?_⟩
  intro hnd df hdf
  have h := foldl_innerMerge_nodup_length rest d
    (hnd d (List.mem_cons_self _ _))
    (fun df' hdf' => hnd df' (List.mem_cons_of_mem _ hdf'))
  rcases List.mem_cons.mp hdf with rfl | hdf'
  · exact h.2.1
  · exact h.2.2 df hdf'

theorem merge_inner_join_props_witness :
    (innerMerge witA witB).length ≤ witB.length :=
  (merge_inner_join_props witA [witB] (innerMerge witA witB) rfl).2
    (by decide) witB (by decide)

theorem zip_take_min {α β : Type} (as : List α) (bs : List β) :
    (as.take (min as.length bs.length)).zip
      (bs.take (min as.length bs.length)) = as.zip bs := by
  induction as generalizing bs with
  | nil => simp
  | cons a as ih =>
    cases bs with
    | nil => simp
    | cons b bs =>
      simp only [List.length_cons, Nat.succ_min_succ, List.take_succ_cons,
        List.zip_cons_cons, List.cons.injEq, true_and]
      exact ih bs

/-- C8: `zip(urls, columns)` stops at the shorter list, so the merge result
is determined by the pairs up to the shorter length; trailing extras of the
longer list are ignored and cause no error. -/
theorem merge_climate_data_truncates (urls columns : List String)
    (load : String → String → List MRow) :
    merge_climate_data urls columns load =
      merge_climate_data (urls.take (min urls.length columns.length))
        (columns.take (min urls.length columns.length)) load := by
  unfold merge_climate_data
  rw [zip_take_min]

/-- C9: with no sources, `zip` is empty, so `dfs` is empty and `dfs[0]`
raises `IndexError`: the call fails rather than returning an empty table. -/
theorem merge_climate_data_empty_sources (columns : List String)
    (load : String → String → List MRow) :
    merge_climate_data [] columns load = none := rfl

theorem find?_map_setCol (c : String) (v : List (Option Rat)) (df : DF)
    (h : (df.any fun p => decide (p.1 = c)) = true) :
    ((df.map fun p => if p.1 = c then (c, v) else p).find?
      fun p => decide (p.1 = c)) = some (c, v) := by
  induction df with
  | nil => simp at h
  | cons p df ih =>
    by_cases hp : p.1 = c
    · simp [hp, List.find?]
    · have h' : (df.any fun p => decide (p.1 = c)) = true := by
        simpa [List.any_cons, hp] using h
      simp only [List.map_cons, if_neg hp]
      rw [List.find?_cons_of_neg _ (by simpa using hp)]
      exact ih h'

theorem getCol_setCol_self (df : DF) (c : String) (v : List (Option Rat)) :
    getCol (setCol df c v) c = some v := by
  unfold setCol
  split
  · unfold getCol
    rw [find?_map_setCol c v df (by assumption)]
    rfl
  · unfold getCol
    rw [List.find?_append]
    have hnone : (df.find? fun p => decide (p.1 = c)) = none := by
      rw [List.find?_eq_none]
      intro p hp
      simp only [decide_eq_true_eq]
      intro hpc
      exact absurd (List.any_eq_true.mpr ⟨p, hp, decide_eq_true hpc⟩)
        (by assumption)
    simp [hnone, List.find?]

theorem find?_map_setCol_ne (c c' : String) (v : List (Option Rat))
    (h : c' ≠ c) (df : DF) :
    ((df.map fun p => if p.1 = c then (c, v) else p).find?
        fun p => decide (p.1 = c')) =
      df.find? fun p => decide (p.1 = c') := by
  induction df with
  | nil => rfl
  | cons p df ih =>
    by_cases hp : p.1 = c
    · have h1 : ¬ ((c, v).1 = c') := fun he => h (he.symm ▸ rfl)
      have h2 : ¬ (p.1 = c') := fun he => h (hp ▸ he ▸ rfl)
      simp only [List.map_cons, if_pos hp]
      rw [List.find?_cons_of_neg _ (by simpa using h1),
        List.find?_cons_of_neg _ (by simpa using h2)]
      exact ih
    · simp only [List.map_cons, if_neg hp]
      by_cases hq : p.1 = c'
      · rw [List.find?_cons_of_pos _ (by simpa using hq),
          List.find?_cons_of_pos _ (by simpa using hq)]
      · rw [List.find?_cons_of_neg _ (by simpa using hq),
          List.find?_cons_of_neg _ (by simpa using hq)]
        exact ih

theorem getCol_setCol_ne (df : DF) (c c' : String) (v : List (Option Rat))
    (h : c' ≠ c) : getCol (setCol df c v) c' = getCol df c' := by
  unfold setCol
  split
  · unfold getCol
    rw [find?_map_setCol_ne c c' v h df]
  · unfold getCol
    rw [List.find?_append]
    have h1 : (([(c, v)] : DF).find? fun p => decide (p.1 = c')) = none := by
      rw [List.find?_eq_none]
      intro p hp
      simp only [List.mem_singleton] at hp
      subst hp
      simpa using fun he => h he.symm
    cases hf : df.find? fun p => decide (p.1 = c') <;> simp [hf, h1]

theorem getCol_setCol (df : DF) (c c' : String) (v : List (Option Rat)) :
    getCol (setCol df c v) c' = if c' = c then some v else getCol df c' := by
  by_cases h : c' = c
  · subst h; rw [if_pos rfl]; exact getCol_setCol_self df c' v
  · rw [if_neg h]; exact getCol_setCol_ne df c c' v h

theorem rollingMean_length (w : Nat) (xs : List (Option Rat)) :
    (rollingMean w xs).length = xs.length := by
  simp [rollingMean]

theorem rollingMean_of_length_lt (w : Nat) (xs : List (Option Rat))
    (h : xs.length < w) :
    rollingMean w xs = List.replicate xs.length none := by
  unfold rollingMean
  rw [List.eq_replicate_iff]
  refine ⟨by simp, ?_⟩
  intro o ho
  simp only [List.mem_map, List.mem_range] at ho
  obtain ⟨i, hi, rfl⟩ := ho
  unfold rollingMeanAt
  rw [if_neg]
  rintro ⟨-, h2, -⟩
  omega

theorem reduceOption_replicate_some (k : Nat) (v : Rat) :
    (List.replicate k (some v)).reduceOption = List.replicate k v := by
  induction k with
  | zero => rfl
  | succ k ih =>
    simp only [List.replicate_succ, List.reduceOption_cons_of_some, ih]

/-- C4 (counterexample): a window size of 0 does not exceed the row
count 1, and index 0 is at least `w - 1 = 0`, yet pandas produces NaN
there (a mean over zero observations), not the constant value. -/
theorem rolling_mean_window_zero_counterexample :
    (0 : Nat) ≤ 1 ∧ (0 : Nat) - 1 ≤ 0 ∧
      (rollingMean 0 (List.replicate 1 (some (5 : Rat))))[0]? = some none ∧
      (rollingMean 0 (List.replicate 1 (some (5 : Rat))))[0]? ≠
        some (some 5) := by
  decide

/-- C4 (amended): for a column holding the constant `v` and a window size
`w` with `1 ≤ w` and `w` not exceeding the row count, the rolling mean
equals `v` at every index from `w - 1` onward and is NaN at every index
before `w - 1`. -/
theorem rolling_mean_constant_column (n w : Nat) (v : Rat) (hw : 1 ≤ w)
    (_hwn : w ≤ n) (i : Nat) (hi : i < n) :
    (w - 1 ≤ i →
      (rollingMean w (List.replicate n (some v)))[i]? = some (some v)) ∧
    (i < w - 1 →
      (rollingMean w (List.replicate n (some v)))[i]? = some none) := by
  have hget : (rollingMean w (List.replicate n (some v)))[i]? =
      some (rollingMeanAt w (List.replicate n (some v)) i) := by
    unfold rollingMean
    rw [List.getElem?_map, List.length_replicate, List.getElem?_range hi]
    rfl
  constructor
  · intro hwi
    have hw1 : w ≤ i + 1 := by omega
    have hwin : rollingWindow (List.replicate n (some v)) w i =
        List.replicate w (some v) := by
      unfold rollingWindow
      rw [List.take_replicate, List.drop_replicate]
      congr 1
      omega
    have hcond : 1 ≤ w ∧ w ≤ i + 1 ∧
        ((rollingWindow (List.replicate n (some v)) w i).all
          Option.isSome = true) := by
      refine ⟨hw, hw1, ?_⟩
      rw [hwin]
      simp [List.all_eq_true, List.mem_replicate]
    rw [hget]
    unfold rollingMeanAt
    rw [if_pos hcond, hwin, reduceOption_replicate_some, List.sum_replicate,
      nsmul_eq_mul,
      mul_div_cancel_left₀ v (Nat.cast_ne_zero.mpr (by omega : w ≠ 0))]
  · intro hwi
    rw [hget]
    unfold rollingMeanAt
    rw [if_neg]
    rintro ⟨-, h2, -⟩
    omega

theorem rolling_mean_constant_column_witness :
    (rollingMean 2 (List.replicate 2 (some (7 : Rat))))[1]? =
      some (some 7) :=
  (rolling_mean_constant_column 2 2 7 (by decide) (by decide) 1
    (by decide)).1 (by decide)

theorem plotMA_frame (w : Nat) (cs : List String) :
    ∀ df df' : DF, plot_moving_averages w df cs = some df' →
      ∀ c, c ∉ cs → getCol df' c = getCol df c := by
  induction cs with
  | nil =>
    intro df df' h c _
    have h' : df = df' := Option.some.inj h
    rw [h']
  | cons c0 cs ih =>
    intro df df' h c hc
    unfold plot_moving_averages at h
    cases hg : getCol df c0 with
    | none => rw [hg] at h; simp at h
    | some xs =>
      rw [hg] at h
      simp only [Option.some_bind] at h
      have hne : c ≠ c0 := fun he => hc (he ▸ List.mem_cons_self _ _)
      rw [ih _ _ h c (fun hm => hc (List.mem_cons_of_mem _ hm)),
        getCol_setCol_ne df c0 c _ hne]

theorem setCol_lengths (df : DF) (c : String) (v : List (Option Rat))
    (n : Nat) (hdf : ∀ p ∈ df, p.2.length = n) (hv : v.length = n) :
    ∀ p ∈ setCol df c v, p.2.length = n := by
  intro p hp
  unfold setCol at hp
  split at hp
  · obtain ⟨q, hq, hpq⟩ := List.mem_map.mp hp
    by_cases h : q.1 = c
    · rw [if_pos h] at hpq
      rw [← hpq]
      exact hv
    · rw [if_neg h] at hpq
      rw [← hpq]
      exact hdf q hq
  · rcases List.mem_append.mp hp with h | h
    · exact hdf p h
    · simp only [List.mem_singleton] at h
      rw [h]
      exact hv

theorem getCol_mem_lengths (df : DF) (c : String) (xs : List (Option Rat))
    (n : Nat) (hdf : ∀ p ∈ df, p.2.length = n) (h : getCol df c = some xs) :
    xs.length = n := by
  unfold getCol at h
  cases hf : df.find? fun p => decide (p.1 = c) with
  | none => rw [hf] at h; simp at h
  | some p =>
    rw [hf] at h
    rw [Option.map_some'] at h
    rw [← Option.some.inj h]
    exact hdf p (List.mem_of_find?_eq_some hf)

theorem plotMA_total (w n : Nat) (cs : List String) :
    ∀ df : DF, (∀ p ∈ df, p.2.length = n) → n < w →
      (∀ c ∈ cs, ∃ xs, getCol df c = some xs) →
      ∃ df', plot_moving_averages w df cs = some df' ∧
        (∀ p ∈ df', p.2.length = n) ∧
        ∀ c ∈ cs, getCol df' c = some (List.replicate n none) := by
  induction cs with
  | nil =>
    intro df hdf _ _
    exact ⟨df, rfl, hdf, fun c hc => absurd hc (List.not_mem_nil c)⟩
  | cons c0 cs ih =>
    intro df hdf hw hcols
    obtain ⟨xs, hxs⟩ := hcols c0 (List.mem_cons_self _ _)
    have hxn : xs.length = n := getCol_mem_lengths df c0 xs n hdf hxs
    have hroll : rollingMean w xs = List.replicate n none := by
      rw [rollingMean_of_length_lt w xs (by omega), hxn]
    set df1 := setCol df c0 (rollingMean w xs) with hdf1
    have hdf1len : ∀ p ∈ df1, p.2.length = n :=
      setCol_lengths df c0 (rollingMean w xs) n hdf
        (by rw [rollingMean_length, hxn])
    have hcols1 : ∀ c ∈ cs, ∃ xs', getCol df1 c = some xs' := by
      intro c hc
      rw [hdf1, getCol_setCol]
      by_cases he : c = c0
      · exact ⟨rollingMean w xs, by rw [if_pos he]⟩
      · rw [if_neg he]
        exact hcols c (List.mem_cons_of_mem _ hc)
    obtain ⟨df', h1, h2, h3⟩ := ih df1 hdf1len hw hcols1
    refine ⟨df', ?_, h2, ?_⟩
    · unfold plot_moving_averages
      rw [hxs]
      simpa only [Option.some_bind] using h1
    · intro c hc
      rcases List.mem_cons.mp hc with rfl | hc'
      · by_cases hmem : c ∈ cs
        · exact h3 c hmem
        · rw [plotMA_frame w cs df1 df' h1 c hmem, hdf1, getCol_setCol_self,
            hroll]
      · exact h3 c hc'

/-- C7: when the window exceeds the row count, every rewritten column
becomes all-NaN (an all-undefined series) and the call succeeds. -/
theorem plot_moving_averages_large_window (w n : Nat) (cs : List String)
    (df : DF) (hdf : ∀ p ∈ df, p.2.length = n) (hw : n < w)
    (hcols : ∀ c ∈ cs, ∃ xs, getCol df c = some xs) :
    ∃ df', plot_moving_averages w df cs = some df' ∧
      ∀ c ∈ cs, getCol df' c = some (List.replicate n none) := by
  obtain ⟨df', h1, -, h3⟩ := plotMA_total w n cs df hdf hw hcols
  exact ⟨df', h1, h3⟩

theorem plot_moving_averages_large_window_witness :
    ∃ df', plot_moving_averages 2 [("t", [some (1 : Rat)])] ["t"] =
        some df' ∧
      ∀ c ∈ ["t"], getCol df' c = some (List.replicate 1 none) :=
  plot_moving_averages_large_window 2 1 ["t"] [("t", [some (1 : Rat)])]
    (by decide) (by decide)
    (fun c hc => ⟨[some (1 : Rat)], by
      rw [List.mem_singleton.mp hc]; rfl⟩)

theorem rollingMean_two_mdf :
    rollingMean 2 [some (1 : Rat), some 3] = [none, some 2] := by
  have e0 : rollingMeanAt 2 [some (1 : Rat), some 3] 0 = none := by
    unfold rollingMeanAt
    rw [if_neg]
    rintro ⟨-, h, -⟩
    omega
  have e1 : rollingMeanAt 2 [some (1 : Rat), some 3] 1 = some 2 := by
    unfold rollingMeanAt
    rw [if_pos]
    · have hwin : rollingWindow [some (1 : Rat), some 3] 2 1 =
          [some 1, some 3] := rfl
      rw [hwin]
      norm_num [List.reduceOption, List.filterMap_cons]
    · exact ⟨by omega, by omega, by decide⟩
  show (List.range 2).map (rollingMeanAt 2 [some (1 : Rat), some 3]) = _
  have hr : List.range 2 = [0, 1] := rfl
  rw [hr, List.map_cons, List.map_cons, List.map_nil, e0, e1]

theorem plot_mdf : plot_moving_averages 2 mdf ["t"] = some mdfAfter := by
  have h1 : getCol mdf "t" = some [some 1, some 3] := by decide
  unfold plot_moving_averages
  rw [h1]
  simp only [Option.some_bind]
  unfold plot_moving_averages
  rw [rollingMean_two_mdf]
  decide

/-- C5 (counterexample): after `plot_moving_averages` returns, the
caller's frame holds the rolling means in the transformed column, not the
original values: the assignment `df[column] = ...` mutates the caller's
frame, not a working copy. -/
theorem moving_average_copy_counterexample :
    ∃ df', plot_moving_averages 2 mdf ["t"] = some df' ∧
      getCol df' "t" ≠ getCol mdf "t" :=
  ⟨mdfAfter, plot_mdf, by decide⟩

/-- C5 (amended): `plot_moving_averages` mutates the caller's table in
place: after the call, each transformed column holds the rolling means of
its original values (columns listed once each). -/
theorem plot_moving_averages_mutates (w : Nat) (cs : List String) :
    ∀ df df' : DF, plot_moving_averages w df cs = some df' → cs.Nodup →
      ∀ c ∈ cs, ∀ xs, getCol df c = some xs →
        getCol df' c = some (rollingMean w xs) := by
  induction cs with
  | nil =>
    intro df df' _ _ c hc
    exact absurd hc (List.not_mem_nil c)
  | cons c0 cs ih =>
    intro df df' h hnd c hc xs hxs
    unfold plot_moving_averages at h
    cases hg : getCol df c0 with
    | none => rw [hg] at h; simp at h
    | some xs0 =>
      rw [hg] at h
      simp only [Option.some_bind] at h
      have hnd' := List.nodup_cons.mp hnd
      rcases List.mem_cons.mp hc with rfl | hc'
      · have hx : xs = xs0 := by
          rw [hxs] at hg
          exact Option.some.inj hg
        rw [plotMA_frame w cs _ df' h c hnd'.1, getCol_setCol_self, hx]
      · have hne : c ≠ c0 := fun he => hnd'.1 (he ▸ hc')
        exact ih _ df' h hnd'.2 c hc' xs
          ((getCol_setCol_ne df c0 c _ hne).trans hxs)

theorem plot_moving_averages_mutates_witness :
    getCol mdfAfter "t" = some (rollingMean 2 [some (1 : Rat), some 3]) :=
  plot_moving_averages_mutates 2 ["t"] mdf mdfAfter plot_mdf (by decide)
    "t" (by decide) [some (1 : Rat), some 3] (by decide)

/-- C10: when `"year"` is not among the transformed columns, the loop
never assigns to it, so the caller's year column is unchanged. -/
theorem plot_moving_averages_preserves_year (w : Nat) (df df' : DF)
    (cs : List String) (hy : "year" ∉ cs)
    (h : plot_moving_averages w df cs = some df') :
    getCol df' "year" = getCol df "year" :=
  plotMA_frame w cs df df' h "year" hy

theorem plot_moving_averages_preserves_year_witness :
    getCol mdfAfter "year" = getCol mdf "year" :=
  plot_moving_averages_preserves_year 2 mdf mdfAfter ["t"] (by decide)
    plot_mdf

theorem insertAsc_perm (y : Int) (l : List Int) :
    (insertAsc y l).Perm (y :: l) := by
  induction l with
  | nil => exact List.Perm.refl _
  | cons x xs ih =>
    unfold insertAsc
    split
    · exact List.Perm.refl _
    · exact (List.Perm.cons x ih).trans (List.Perm.swap y x xs)

theorem sortAsc_perm (l : List Int) : (sortAsc l).Perm l := by
  induction l with
  | nil => exact List.Perm.refl _
  | cons x xs ih =>
    exact (insertAsc_perm x (sortAsc xs)).trans (List.Perm.cons x ih)

theorem yearly_counts_sum (years : List Int) :
    ((yearly_counts years).map Prod.snd).sum =
      (years.filter fun y => decide (1999 < y)).length := by
  unfold yearly_counts
  rw [List.map_map]
  have hcomp : (Prod.snd ∘ fun y =>
      ((y, (years.filter fun y => decide (1999 < y)).count y) : Int × Nat)) =
      fun y => (years.filter fun y => decide (1999 < y)).count y := rfl
  rw [hcomp]
  rw [List.Perm.sum_eq ((sortAsc_perm _).map _)]
  exact List.sum_map_count_dedup_eq_length _

theorem parseAll_count (parse : String → Option Int) :
    ∀ rows ys, parseAll parse rows = some ys →
      (ys.filter fun y => decide (1999 < y)).length =
        rows.countP fun r =>
          ((parse r).map fun y => decide (1999 < y)).getD false := by
  intro rows
  induction rows with
  | nil =>
    intro ys h
    have h' : ([] : List Int) = ys := Option.some.inj h
    rw [← h']
    rfl
  | cons r rs ih =>
    intro ys h
    unfold parseAll at h
    cases hp : parse r with
    | none => rw [hp] at h; cases parseAll parse rs <;> simp at h
    | some y =>
      rw [hp] at h
      cases hps : parseAll parse rs with
      | none => rw [hps] at h; simp at h
      | some ys' =>
        rw [hps] at h
        have h' : y :: ys' = ys := Option.some.inj h
        rw [← h']
        rw [List.countP_cons, List.filter_cons]
        simp only [hp, Option.map_some', Option.getD_some]
        have hih := ih ys' hps
        by_cases hb : decide ((1999 : Int) < y) = true
        · rw [if_pos hb, if_pos hb, List.length_cons, hih]
        · rw [if_neg hb, if_neg hb, hih, Nat.add_zero]

/-- C3: when every date parses, the sum of the bar heights equals the
number of rows whose parsed year is strictly greater than 1999. -/
theorem unclaimed_estates_bar_sum (parse : String → Option Int)
    (rows : List String) (bars : List (Int × Nat))
    (h : plot_unclaimed_estates parse rows = some bars) :
    (bars.map Prod.snd).sum =
      rows.countP fun r =>
        ((parse r).map fun y => decide (1999 < y)).getD false := by
  unfold plot_unclaimed_estates at h
  cases hps : parseAll parse rows with
  | none => rw [hps] at h; simp at h
  | some ys =>
    rw [hps, Option.map_some'] at h
    rw [← Option.some.inj h, yearly_counts_sum ys]
    exact parseAll_count parse rows ys hps

theorem unclaimed_estates_bar_sum_witness :
    (([((2005 : Int), 1)] : List (Int × Nat)).map Prod.snd).sum =
      ["a", "old"].countP fun r =>
        (((fun s =>
          if s = "old" then some (1990 : Int) else some 2005) r).map
            fun y => decide (1999 < y)).getD false :=
  unclaimed_estates_bar_sum
    (fun s => if s = "old" then some (1990 : Int) else some 2005)
    ["a", "old"] [(2005, 1)] (by decide)

theorem parseAll_none (parse : String → Option Int) :
    ∀ rows : List String, (∃ r ∈ rows, parse r = none) →
      parseAll parse rows = none := by
  intro rows
  induction rows with
  | nil =>
    rintro ⟨r, hr, -⟩
    exact absurd hr (List.not_mem_nil r)
  | cons a rs ih =>
    rintro ⟨r, hr, hpr⟩
    unfold parseAll
    rcases List.mem_cons.mp hr with rfl | hr'
    · rw [hpr]
    · rw [ih ⟨r, hr', hpr⟩]
      cases parse a <;> rfl

/-- C6: one unparsable date makes the whole call fail: no row is skipped
and no partial bar chart is produced. -/
theorem unclaimed_estates_unparsable_fatal (parse : String → Option Int)
    (rows : List String) (h : ∃ r ∈ rows, parse r = none) :
    plot_unclaimed_estates parse rows = none := by
  unfold plot_unclaimed_estates
  rw [parseAll_none parse rows h]
  rfl

theorem unclaimed_estates_unparsable_fatal_witness :
    plot_unclaimed_estates
      (fun s => if s = "bad" then none else some (2005 : Int))
      ["a", "bad"] = none :=
  unclaimed_estates_unparsable_fatal _ ["a", "bad"]
    ⟨"bad", by decide, by decide⟩

/-- C2: the slice counts after bucketing sum to the number of input rows,
and no category (other than the `"Other"` sentinel itself) whose original
relative frequency is strictly below the threshold remains as a distinct
slice label. -/
theorem marital_pie_props (xs : List String) (θ : Rat) :
    ((plot_marital_status_distribution xs θ).map Prod.snd).sum =
      xs.length ∧
    ∀ c, c ≠ "Other" → (xs.count c : Rat) / (xs.length : Rat) < θ →
      c ∉ (plot_marital_status_distribution xs θ).map Prod.fst := by
  constructor
  · unfold plot_marital_status_distribution pieSlices
    rw [List.map_map]
    have hcomp : (Prod.snd ∘ fun c =>
        ((c, (relabelMarital xs θ).count c) : String × Nat)) =
        fun c => (relabelMarital xs θ).count c := rfl
    rw [hcomp, List.sum_map_count_dedup_eq_length]
    unfold relabelMarital
    exact List.length_map _ _
  · intro c hco hcθ hmem
    unfold plot_marital_status_distribution pieSlices at hmem
    rw [List.map_map] at hmem
    have hcomp : (Prod.fst ∘ fun c =>
        ((c, (relabelMarital xs θ).count c) : String × Nat)) = id := rfl
    rw [hcomp, List.map_id, List.mem_dedup] at hmem
    unfold relabelMarital at hmem
    obtain ⟨x, hx, hxc⟩ := List.mem_map.mp hmem
    by_cases hs : x ∈ small_categories xs θ
    · rw [if_pos hs] at hxc
      exact hco hxc.symm
    · rw [if_neg hs] at hxc
      refine hs ?_
      rw [hxc]at hs ⊢
      unfold small_categories
      rw [List.mem_filter]
      exact ⟨List.mem_dedup.mpr (hxc ▸ hx), decide_eq_true hcθ⟩

theorem marital_pie_props_witness :
    ((plot_marital_status_distribution ["A", "A", "B"] (1 / 2)).map
        Prod.snd).sum = 3 ∧
    "B" ∉ (plot_marital_status_distribution ["A", "A", "B"] (1 / 2)).map
        Prod.fst :=
  ⟨(marital_pie_props ["A", "A", "B"] (1 / 2)).1,
    (marital_pie_props ["A", "A", "B"] (1 / 2)).2 "B" (by decide) (by
      have h1 : (["A", "A", "B"].count "B") = 1 := by decide
      have h2 : (["A", "A", "B"].length) = 3 := by decide
      rw [h1, h2]
      norm_num)⟩

end Visual

